import Mathlib

/-!
Verification development for the Kaleidoscope front end
(`src/kaleidoscope.cpp`): a lexer producing tokens from a character
stream and a recursive-descent / precedence-climbing parser producing an
AST.  The C++ code is shallowly embedded: the character stream is a
`List Char`, the C global variables (`last_char`, `identifier_str`,
`numeric_value`) form an explicit `LexGlobals` record, `double` values
produced by `strtod` on digit-and-dot strings are modelled exactly as
rationals, and parser failure (`nullptr` plus a `log_error` side effect
on `stderr`) is modelled by an explicit result type carrying the error
log.
-/

namespace Kaleidoscope

/-! ## Character classification (C `<ctype.h>`, ASCII/C locale) -/

/-- C `isspace`: space, tab, newline, vertical tab, form feed, carriage return. -/
def isspace (c : Char) : Bool :=
  c = ' ' || c = '\t' || c = '\n' || c = Char.ofNat 11 || c = Char.ofNat 12 || c = '\r'

/-- C `isalpha` in the C locale: ASCII letters only. -/
def isalpha (c : Char) : Bool :=
  ('a' ≤ c && c ≤ 'z') || ('A' ≤ c && c ≤ 'Z')

/-- C `isdigit`: ASCII decimal digits. -/
def isdigit (c : Char) : Bool :=
  '0' ≤ c && c ≤ '9'

/-- C `isalnum`: letter or digit. -/
def isalnum (c : Char) : Bool :=
  isalpha c || isdigit c

/-! ## Token kind codes (the C `enum token`; positive codes are literal chars) -/

/-- `tok_eof = -1` -/
def tok_eof : Int := -1

/-- `tok_def = -2` -/
def tok_def : Int := -2

/-- `tok_extern = -3` -/
def tok_extern : Int := -3

/-- `tok_identifier = -4` -/
def tok_identifier : Int := -4

/-- `tok_number = -5` -/
def tok_number : Int := -5

/-! ## `strtod` on the lexer's digit-and-dot strings

`get_token` hands `strtod` a string consisting only of digits and `'.'`
characters.  On such a string `strtod` parses the longest prefix of the
form `digits ['.' digits]` and ignores the rest (so `"1.2.3"` gives
`1.2`, and a string with no leading digits before a second dot stops
there).  The value is modelled exactly as a rational. -/

/-- Decimal value of a digit list (most significant first). -/
def digitsToNat (ds : List Char) : Nat :=
  ds.foldl (fun a c => 10 * a + (c.toNat - 48)) 0

/-- `strtod` restricted to digit/dot strings: parse `digits ['.' digits]`
as an exact rational and ignore any remaining characters. -/
def strtod (s : List Char) : ℚ :=
  let ip := s.takeWhile isdigit
  let rest := s.dropWhile isdigit
  match rest with
  | '.' :: rest2 =>
      let fp := rest2.takeWhile isdigit
      (digitsToNat ip : ℚ) + (digitsToNat fp : ℚ) / (10 : ℚ) ^ fp.length
  | _ => (digitsToNat ip : ℚ)

/-! ## Lexer state: the C globals -/

/-- The C globals read and written by `get_token`: the static one-character
lookahead `last_char` (`none` models the `EOF` sentinel; its initial value
is `' '`), plus the token payload globals `identifier_str` and
`numeric_value`. -/
structure LexGlobals where
  last_char : Option Char
  identifier_str : String
  numeric_value : ℚ
deriving DecidableEq, Repr

/-- The globals at program start: `last_char = ' '`, empty
`identifier_str`, zero-initialised `numeric_value`. -/
def initGlobals : LexGlobals :=
  ⟨some ' ', "", 0⟩

/-- The whitespace-skipping loop fused with comment skipping.  In the C
source these are two separate pieces of `get_token`: the leading
`while (isspace(last_char)) last_char = getchar();` loop, and the `'#'`
branch whose `do last_char = getchar(); while (...)` loop discards the
comment body up to `'\n'`, `'\r'` or `EOF` and then restarts `get_token`
(which again begins by skipping whitespace, so a restart that lands on a
newline falls back into the whitespace loop, and another `'#'` enters a
new comment).  Because `'#'` is neither whitespace, alphabetic, a digit
nor `'.'`, the checks performed between the two loops never fire during
this cycle, and the two loops fuse into one character-at-a-time loop over
the input with an `inComment` flag.  A `getchar` on exhausted input yields
the `EOF` sentinel (`none`). -/
def skipWC (inComment : Bool) (lc : Option Char) (input : List Char) :
    Option Char × List Char :=
  match lc with
  | none => (none, input)
  | some c =>
    if inComment then
      if c = '\n' || c = '\r' then
        match input with
        | [] => (none, [])
        | d :: rest => skipWC false (some d) rest
      else
        match input with
        | [] => (none, [])
        | d :: rest => skipWC true (some d) rest
    else
      if isspace c then
        match input with
        | [] => (none, [])
        | d :: rest => skipWC false (some d) rest
      else if c = '#' then
        match input with
        | [] => (none, [])
        | d :: rest => skipWC true (some d) rest
      else (some c, input)

/-- The identifier accumulation loop of `get_token`:
`while (isalnum((last_char = getchar()))) identifier_str += last_char;`.
Returns the accumulated string, the new `last_char`, and the remaining
input. -/
def readIdent (acc : String) (input : List Char) :
    String × Option Char × List Char :=
  match input with
  | [] => (acc, none, [])
  | c :: rest =>
    if isalnum c then readIdent (acc.push c) rest
    else (acc, some c, rest)

/-- The numeric accumulation loop of `get_token`:
`do { numeric_str += last_char; last_char = getchar(); } while (isdigit(last_char) || last_char == '.');`
with the leading character already appended by the caller.  Returns the
accumulated character list, the new `last_char`, and the remaining
input. -/
def readNum (acc : List Char) (input : List Char) :
    List Char × Option Char × List Char :=
  match input with
  | [] => (acc, none, [])
  | c :: rest =>
    if isdigit c || c = '.' then readNum (acc ++ [c]) rest
    else (acc, some c, rest)

/-- `get_token`: return the next token code from the input, updating the
globals.  Mirrors the C function: skip whitespace and comments; an
alphabetic character starts an identifier (checked against the keywords
`def` and `extern`); a digit or `'.'` starts a number whose accumulated
digit/dot string is handed to `strtod`; exhausted input yields `tok_eof`;
any other character is returned as its own (nonnegative) character code. -/
def get_token (g : LexGlobals) (input : List Char) :
    Int × LexGlobals × List Char :=
  match skipWC false g.last_char input with
  | (none, input1) => (tok_eof, { g with last_char := none }, input1)
  | (some c, input1) =>
    if isalpha c then
      let (ident, lc2, input2) := readIdent (String.singleton c) input1
      let g2 := { g with identifier_str := ident, last_char := lc2 }
      if ident = "def" then (tok_def, g2, input2)
      else if ident = "extern" then ( tok_extern, g2, input2)
      else (tok_identifier, g2, input2)
    else if isdigit c || c = '.' then
      let (numeric_str, lc2, input2) := readNum [c] input1
      (tok_number, { g with numeric_value := strtod numeric_str, last_char := lc2 }, input2)
    else
      match input1 with
      | [] => ((c.toNat : Int), { g with last_char := none }, [])
      | d :: rest => ((c.toNat : Int), { g with last_char := some d }, rest)

/-! ## Observable tokens -/

/-- A token as observed by a consumer of the lexer: the returned kind code
together with the payload global it directs the consumer to read
(`identifier_str` for identifiers, `numeric_value` for numbers). -/
inductive Tok where
  | eof : Tok
  | tdef : Tok
  | textern : Tok
  | ident (name : String) : Tok
  | num (value : ℚ) : Tok
  | chr (c : Char) : Tok
deriving DecidableEq, Repr

/-- Package a `get_token` result code with the payload globals into an
observable token. -/
def mkTok (k : Int) (g : LexGlobals) : Tok :=
  if k = tok_eof then Tok.eof
  else if k = tok_def then Tok.tdef
  else if k = tok_extern then Tok.textern
  else if k = tok_identifier then Tok.ident g.identifier_str
  else if k = tok_number then Tok.num g.numeric_value
  else Tok.chr (Char.ofNat k.toNat)

/-- Run `get_token` repeatedly, collecting the observable tokens up to
(and excluding) `tok_eof`.  `fuel` bounds the number of steps. -/
def tokenize_f : Nat → LexGlobals → List Char → List Tok
  | 0, _, _ => []
  | fuel + 1, g, input =>
    match get_token g input with
    | (k, g2, input2) =>
      if k = tok_eof then []
      else mkTok k g2 :: tokenize_f fuel g2 input2

/-- The complete token sequence of an input stream: every `get_token`
call either consumes at least one input character or ends the stream, so
`input.length + 2` steps always reach `tok_eof`. -/
def tokenize (g : LexGlobals) (input : List Char) : List Tok :=
  tokenize_f (input.length + 2) g input

/-! ## AST model

The C++ class hierarchy `expr_ast` / `number_expr_ast` / &c. becomes one
closed inductive type; `prototype_ast` and `function_ast` stay separate
as in the source. -/

/-- Expression AST nodes: numeric literal, variable reference, binary
operation, and function call. -/
inductive expr_ast where
  | number_expr (value : ℚ) : expr_ast
  | variable_expr (name : String) : expr_ast
  | binary_expr (op : Char) (lhs rhs : expr_ast) : expr_ast
  | call_expr (callee : String) (args : List expr_ast) : expr_ast
deriving Repr

/-- A function prototype: its name and argument names. -/
structure prototype_ast where
  name : String
  args : List String
deriving DecidableEq, Repr

/-- A function definition: prototype plus body expression. -/
structure function_ast where
  proto : prototype_ast
  body : expr_ast
deriving Repr

/-! ## Parser state

The parser pulls tokens on demand through the one-token buffer
`current_token` / `get_next_token`.  Because the lexer is a deterministic
function of its own state, the stream of tokens the parser will see is
fixed in advance, so parser state is the list of tokens not yet consumed
(an exhausted list keeps yielding `tok_eof`, like the C lexer at end of
input) together with the log of diagnostics written to `stderr` by
`log_error`. -/

/-- Parser state: unconsumed tokens plus emitted diagnostics. -/
structure PState where
  toks : List Tok
  log : List String
deriving Repr

/-- The token the parser is looking at (`current_token`); an exhausted
stream keeps presenting `tok_eof`. -/
def current_token (s : PState) : Tok :=
  s.toks.headD Tok.eof

/-- `get_next_token`: advance the one-token buffer. -/
def get_next_token (s : PState) : PState :=
  { s with toks := s.toks.tail }

/-- `log_error`: emit a diagnostic on the error channel (and in the C
code return `nullptr`, modelled by the caller producing a `fail`). -/
def log_error (str : String) (s : PState) : PState :=
  { s with log := s.log ++ [str] }

/-- The integer code a token presents as the C `current_token`
(used by `isascii`, by `binop_precedence[current_token]`, and by
`std::to_string` in diagnostics). -/
def tokInt : Tok → Int
  | Tok.eof => tok_eof
  | Tok.tdef => tok_def
  | Tok.textern => tok_extern
  | Tok.ident _ => tok_identifier
  | Tok.num _ => tok_number
  | Tok.chr c => (c.toNat : Int)

/-- Result of a parser routine: success with a node and the new state,
failure (`nullptr`) with the new state, or fuel exhaustion (`timeout`
never arises from the C code; it is the step bound of the shallow
embedding, and is proved unreachable for sufficient fuel). -/
inductive PResult (α : Type) where
  | ok (val : α) (s : PState) : PResult α
  | fail (s : PState) : PResult α
  | timeout : PResult α
deriving Repr

/-! ## Precedence table -/

/-- `binop_precedence` as a function: the `std::map<char, int>` contents,
with `0` for absent keys (what `operator[]` default-inserts and yields). -/
def binop_precedence (c : Char) : Int :=
  if c = '<' then 10
  else if c = '>' then 10
  else if c = '+' then 20
  else if c = '-' then 20
  else if c = '*' then 40
  else if c = '/' then 40
  else 0

/-- C `isascii` on a token code. -/
def isascii (k : Int) : Bool :=
  0 ≤ k && k ≤ 127

/-- `get_token_precedence`: `-1` unless the current token is an ASCII
literal character whose table entry is strictly positive. -/
def get_token_precedence (s : PState) : Int :=
  if !(isascii (tokInt (current_token s))) then -1
  else
    let token_precedence := binop_precedence (Char.ofNat (tokInt (current_token s)).toNat)
    if token_precedence ≤ 0 then -1 else token_precedence

/-! ## Parser

Each C routine becomes a function from `PState` to `PResult`.  The
mutually recursive routines take a `fuel` argument decremented at every
call, so that the embedding is structurally recursive; the loops inside
`parse_identifier_expr` (argument list) and `parse_binop_rhs` (operator
folding) become tail recursion consuming fuel. -/

/-- `parse_number_expr`: build a `number_expr_ast` from `numeric_value`
(the payload of the current number token) and advance.  Only invoked by
`parse_primary` when the current token is a number; the `0` fallback
models the stale `numeric_value` global otherwise. -/
def parse_number_expr (s : PState) : PResult expr_ast :=
  let v := match current_token s with
    | Tok.num v => v
    | _ => 0
  PResult.ok (expr_ast.number_expr v) (get_next_token s)

mutual

/-- `parse_paren_expr`: consume `'('`, parse an expression, require and
consume `')'`. -/
def parse_paren_expr : Nat → PState → PResult expr_ast
  | 0, _ => PResult.timeout
  | fuel + 1, s =>
    let s1 := get_next_token s
    match parse_expression fuel s1 with
    | PResult.ok v s2 =>
      if current_token s2 ≠ Tok.chr ')' then
        PResult.fail (log_error ("expected \x27)\x27, got " ++
          toString (tokInt (current_token s2)) ++ " instead.") s2)
      else PResult.ok v (get_next_token s2)
    | PResult.fail s2 => PResult.fail s2
    | PResult.timeout => PResult.timeout

/-- `parse_identifier_expr`: a lone identifier is a variable reference; an
identifier followed by `'('` is a call whose argument list is parsed by
the inner loop (`parse_call_args`). -/
def parse_identifier_expr : Nat → PState → PResult expr_ast
  | 0, _ => PResult.timeout
  | fuel + 1, s =>
    let id_name := match current_token s with
      | Tok.ident n => n
      | _ => ""
    let s1 := get_next_token s
    if current_token s1 ≠ Tok.chr '(' then
      PResult.ok (expr_ast.variable_expr id_name) s1
    else
      let s2 := get_next_token s1
      if current_token s2 = Tok.chr ')' then
        PResult.ok (expr_ast.call_expr id_name []) (get_next_token s2)
      else
        match parse_call_args fuel [] s2 with
        | PResult.ok args s3 => PResult.ok (expr_ast.call_expr id_name args) (get_next_token s3)
        | PResult.fail s3 => PResult.fail s3
        | PResult.timeout => PResult.timeout

/-- The `while (true)` argument-list loop inside `parse_identifier_expr`:
parse an expression, then stop at `')'` (left for the caller to consume),
continue past `','`, and fail on anything else. -/
def parse_call_args : Nat → List expr_ast → PState → PResult (List expr_ast)
  | 0, _, _ => PResult.timeout
  | fuel + 1, args, s =>
    match parse_expression fuel s with
    | PResult.ok arg s1 =>
      if current_token s1 = Tok.chr ')' then PResult.ok (args ++ [arg]) s1
      else if current_token s1 ≠ Tok.chr ',' then
        PResult.fail (log_error ("Expected \x27)\x27 of \x27,\x27 in argument list, got " ++
          toString (tokInt (current_token s1)) ++ " instead.") s1)
      else parse_call_args fuel (args ++ [arg]) (get_next_token s1)
    | PResult.fail s1 => PResult.fail s1
    | PResult.timeout => PResult.timeout

/-- `parse_primary`: dispatch on the current token; anything that is not
an identifier, a number or `'('` is a syntax error. -/
def parse_primary : Nat → PState → PResult expr_ast
  | 0, _ => PResult.timeout
  | fuel + 1, s =>
    match current_token s with
    | Tok.ident _ => parse_identifier_expr fuel s
    | Tok.num _ => parse_number_expr s
    | Tok.chr '(' => parse_paren_expr fuel s
    | t => PResult.fail (log_error ("Expected expression, got " ++
        toString (tokInt t) ++ " instead") s)

/-- `parse_binop_rhs`: the precedence-climbing loop.  While the current
token's precedence is at least `expr_precedence`: consume the operator,
parse a primary as the right-hand side, let a strictly tighter-binding
next operator absorb that right-hand side first (recursive call with
`token_precedence + 1`), and fold `binary_expr` onto the left-hand
side. -/
def parse_binop_rhs : Nat → Int → expr_ast → PState → PResult expr_ast
  | 0, _, _, _ => PResult.timeout
  | fuel + 1, expr_precedence, left_hand_side, s =>
    let token_precedence := get_token_precedence s
    if token_precedence < expr_precedence then PResult.ok left_hand_side s
    else
      let binary_op := match current_token s with
        | Tok.chr c => c
        | _ => Char.ofNat 0
      let s1 := get_next_token s
      match parse_primary fuel s1 with
      | PResult.ok right_hand_side s2 =>
        let next_precedence := get_token_precedence s2
        if token_precedence < next_precedence then
          match parse_binop_rhs fuel (token_precedence + 1) right_hand_side s2 with
          | PResult.ok rhs2 s3 =>
            parse_binop_rhs fuel expr_precedence
              (expr_ast.binary_expr binary_op left_hand_side rhs2) s3
          | PResult.fail s3 => PResult.fail s3
          | PResult.timeout => PResult.timeout
        else
          parse_binop_rhs fuel expr_precedence
            (expr_ast.binary_expr binary_op left_hand_side right_hand_side) s2
      | PResult.fail s2 => PResult.fail s2
      | PResult.timeout => PResult.timeout

/-- `parse_expression`: one primary, then the binary-operator loop with
minimum precedence `0`. -/
def parse_expression : Nat → PState → PResult expr_ast
  | 0, _ => PResult.timeout
  | fuel + 1, s =>
    match parse_primary fuel s with
    | PResult.ok lhs s1 => parse_binop_rhs fuel 0 lhs s1
    | PResult.fail s1 => PResult.fail s1
    | PResult.timeout => PResult.timeout

end

/-- The argument-name loop of `parse_prototype`:
`while (get_next_token() == tok_identifier) arg_names.push_back(identifier_str);`
operating on the raw token list (it touches no diagnostics).  Each step
consumes the current token and inspects the next; it stops with the first
non-identifier as the current token. -/
def read_proto_args (toks : List Tok) (arg_names : List String) :
    List String × List Tok :=
  match toks with
  | [] => (arg_names, [])
  | _ :: rest =>
    match rest with
    | Tok.ident n :: _ => read_proto_args rest (arg_names ++ [n])
    | _ => (arg_names, rest)

/-- `parse_prototype`: function name, `'('`, whitespace-separated
argument names, `')'`. -/
def parse_prototype (s : PState) : PResult prototype_ast :=
  match current_token s with
  | Tok.ident fn_name =>
    let s1 := get_next_token s
    if current_token s1 ≠ Tok.chr '(' then
      PResult.fail (log_error ("Expected \x27(\x27 in prototype, got " ++
        toString (tokInt (current_token s1)) ++ " instead.") s1)
    else
      match read_proto_args s1.toks [] with
      | (arg_names, toks2) =>
        let s2 : PState := { toks := toks2, log := s1.log }
        if current_token s2 ≠ Tok.chr ')' then
          PResult.fail (log_error ("Expected \x27)\x27 in prototype, got " ++
            toString (tokInt (current_token s2)) ++ " instead.") s2)
        else PResult.ok ⟨fn_name, arg_names⟩ (get_next_token s2)
  | t => PResult.fail (log_error ("Expected function name in prototype, got " ++
      toString (tokInt t) ++ " instead") s)

/-- `parse_definition`: consume `def`, parse a prototype, parse the body
expression, combine into a `function_ast`. -/
def parse_definition (fuel : Nat) (s : PState) : PResult function_ast :=
  let s1 := get_next_token s
  match parse_prototype s1 with
  | PResult.ok proto s2 =>
    match parse_expression fuel s2 with
    | PResult.ok expr s3 => PResult.ok ⟨proto, expr⟩ s3
    | PResult.fail s3 => PResult.fail s3
    | PResult.timeout => PResult.timeout
  | PResult.fail s2 => PResult.fail s2
  | PResult.timeout => PResult.timeout

/-- `parse_extern`: consume `extern` and parse a prototype. -/
def parse_extern (s : PState) : PResult prototype_ast :=
  parse_prototype (get_next_token s)

/-- `parse_top_level_expr`: parse one expression and wrap it as an
anonymous `function_ast` with an empty-named, zero-argument prototype. -/
def parse_top_level_expr (fuel : Nat) (s : PState) : PResult function_ast :=
  match parse_expression fuel s with
  | PResult.ok expr s1 => PResult.ok ⟨⟨"", []⟩, expr⟩ s1
  | PResult.fail s1 => PResult.fail s1
  | PResult.timeout => PResult.timeout

/-! ## Basic facts about the parser state -/

theorem current_token_ident_ne_nil {s : PState} {n : String}
    (h : current_token s = Tok.ident n) : s.toks ≠ [] := by
  intro hnil
  rw [show s = ⟨s.toks, s.log⟩ from rfl, hnil] at h
  simp [current_token] at h

theorem current_token_chr_ne_nil {s : PState} {c : Char}
    (h : current_token s = Tok.chr c) : s.toks ≠ [] := by
  intro hnil
  rw [show s = ⟨s.toks, s.log⟩ from rfl, hnil] at h
  simp [current_token] at h

theorem current_token_num_ne_nil {s : PState} {v : ℚ}
    (h : current_token s = Tok.num v) : s.toks ≠ [] := by
  intro hnil
  rw [show s = ⟨s.toks, s.log⟩ from rfl, hnil] at h
  simp [current_token] at h

theorem get_next_token_length_lt {s : PState} (h : s.toks ≠ []) :
    (get_next_token s).toks.length < s.toks.length := by
  cases hs : s.toks with
  | nil => exact absurd hs h
  | cons t ts => simp [get_next_token, hs]

theorem get_next_token_length_le (s : PState) :
    (get_next_token s).toks.length ≤ s.toks.length := by
  cases hs : s.toks <;> simp [get_next_token, hs]

theorem get_next_token_log (s : PState) : (get_next_token s).log = s.log := rfl

theorem log_error_log (str : String) (s : PState) :
    (log_error str s).log = s.log ++ [str] := rfl

/-! ## C1 — lexing of the malformed literal `1.2.3` -/

/-- C1, counterexample.  The claim says tokenizing `"1.2.3"` yields a
number token `1.2`, then a literal-character token for the dot, then a
number token `3`.  In fact the numeric accumulation loop swallows the
entire string `"1.2.3"` into one numeric string, so no `'.'` token and no
`3` token is ever produced. -/
theorem C1_counterexample :
    Tok.chr '.' ∉ tokenize initGlobals ("1.2.3".toList) ∧
    Tok.num 3 ∉ tokenize initGlobals ("1.2.3".toList) ∧
    tokenize initGlobals ("1.2.3".toList) ≠
      [Tok.num (6/5), Tok.chr '.', Tok.num 3] := by
  refine ⟨?_, ?_, ?_⟩
  all_goals
    simp [tokenize, tokenize_f, get_token, skipWC, readNum, mkTok, isspace, isalpha, isdigit,
      initGlobals, tok_eof, tok_def, tok_extern, tok_identifier, tok_number, strtod,
      digitsToNat]
    try norm_num

/-- C1, amended.  Tokenizing `"1.2.3"` yields a single number token whose
value is `1.2` (= 6/5): the lexer accumulates all of `"1.2.3"` as one
digit-and-dot string and `strtod` truncates it to its parseable prefix
`1.2`; the trailing `".3"` is silently discarded and end-of-input
follows. -/
theorem C1_single_number_token :
    tokenize initGlobals ("1.2.3".toList) = [Tok.num (6/5)] := by
  simp [tokenize, tokenize_f, get_token, skipWC, readNum, mkTok, isspace, isalpha, isdigit,
    initGlobals, tok_eof, tok_def, tok_extern, tok_identifier, tok_number, strtod, digitsToNat]
  norm_num

/-! ## C2 — re-tokenization is deterministic -/

/-- One `get_token` step never reads the payload globals
`identifier_str` / `numeric_value`: with equal `last_char` and equal
input, two runs return the same token code, the same new `last_char`,
the same remaining input, and the same observable token, regardless of
the payload residue. -/
theorem get_token_indep (lc : Option Char) (input : List Char) (a b : String) (x y : ℚ) :
    (get_token ⟨lc, a, x⟩ input).1 = (get_token ⟨lc, b, y⟩ input).1 ∧
    (get_token ⟨lc, a, x⟩ input).2.1.last_char = (get_token ⟨lc, b, y⟩ input).2.1.last_char ∧
    (get_token ⟨lc, a, x⟩ input).2.2 = (get_token ⟨lc, b, y⟩ input).2.2 ∧
    mkTok (get_token ⟨lc, a, x⟩ input).1 (get_token ⟨lc, a, x⟩ input).2.1 =
      mkTok (get_token ⟨lc, b, y⟩ input).1 (get_token ⟨lc, b, y⟩ input).2.1 := by
  unfold get_token
  rcases hsk : skipWC false lc input with ⟨lc1, input1⟩
  cases lc1 with
  | none => simp [mkTok]
  | some c =>
    by_cases ha : isalpha c
    · rcases hri : readIdent (String.singleton c) input1 with ⟨ident, lc2, input2⟩
      by_cases hd : ident = "def"
      · simp [ha, hri, hd]
        try rfl
      · by_cases he : ident = "extern"
        · simp [ha, hri, hd, he]
          try rfl
        · simp [ha, hri, hd, he, mkTok, tok_identifier, tok_eof, tok_def, tok_extern]
          try rfl
    · by_cases hn : isdigit c || c = '.'
      · rcases hrn : readNum [c] input1 with ⟨ns, lc2, input2⟩
        simp [ha, hn, hrn, mkTok, tok_number, tok_eof, tok_def, tok_extern, tok_identifier]
        try rfl
      · have h1 : (c.toNat : Int) ≠ tok_eof := by simp [tok_eof]
        have h2 : (c.toNat : Int) ≠ tok_def := by simp [tok_def]
        have h3 : (c.toNat : Int) ≠ tok_extern := by simp [ tok_extern]
        have h4 : (c.toNat : Int) ≠ tok_identifier := by simp [tok_identifier]
        have h5 : (c.toNat : Int) ≠ tok_number := by simp [tok_number]
        cases input1 with
        | nil => simp [ha, hn, mkTok, h1, h2, h3, h4, h5]
        | cons d rest => simp [ha, hn, mkTok, h1, h2, h3, h4, h5]

/-- Lifting `get_token_indep` through the whole run: the token sequence
depends only on `last_char` and the input, never on the payload
residue. -/
theorem tokenize_f_indep :
    ∀ fuel (lc : Option Char) (input : List Char) (a b : String) (x y : ℚ),
      tokenize_f fuel ⟨lc, a, x⟩ input = tokenize_f fuel ⟨lc, b, y⟩ input := by
  intro fuel
  induction fuel with
  | zero => intro lc input a b x y; rfl
  | succ n ih =>
    intro lc input a b x y
    obtain ⟨hk, hlc, hinp, htok⟩ := get_token_indep lc input a b x y
    rcases h1 : get_token ⟨lc, a, x⟩ input with ⟨k1, g1, i1⟩
    rcases h2 : get_token ⟨lc, b, y⟩ input with ⟨k2, g2, i2⟩
    rw [h1, h2] at hk hlc hinp htok
    simp only at hk hlc hinp htok
    subst hk hinp
    rw [tokenize_f, tokenize_f, h1, h2]
    simp only
    by_cases heof : k1 = tok_eof
    · simp [heof]
    · simp only [heof, if_false, htok]
      obtain ⟨l1, a1, x1⟩ := g1
      obtain ⟨l2, a2, x2⟩ := g2
      simp only at hlc
      subst hlc
      rw [ih l1 i1 a1 a2 x1 x2]

/-- C2.  Re-tokenizing the same immutable input from its start (the
lexer cursor reset to its initial `' '`) yields the same token sequence
on every run: no payload residue left in the mutable globals by a
previous run can influence the result. -/
theorem C2_retokenize_deterministic :
    ∀ (input : List Char) (ids1 ids2 : String) (nv1 nv2 : ℚ),
      tokenize ⟨some ' ', ids1, nv1⟩ input = tokenize ⟨some ' ', ids2, nv2⟩ input := by
  intro input ids1 ids2 nv1 nv2
  exact tokenize_f_indep (input.length + 2) (some ' ') input ids1 ids2 nv1 nv2

/-! ## C3, C4 — precedence climbing on concrete expressions -/

/-- C3.  A tighter-binding operator after the right-hand primary absorbs
it first: `a + b * c` parses as `BinaryOp('+', a, BinaryOp('*', b, c))`
for arbitrary numeric literal values, and in particular the character
stream `"1+2*3"` parses that way end to end through the lexer. -/
theorem C3_mul_binds_tighter :
    (∀ a b c : ℚ,
      parse_expression 100 ⟨[Tok.num a, Tok.chr '+', Tok.num b, Tok.chr '*', Tok.num c], []⟩ =
        PResult.ok (expr_ast.binary_expr '+' (expr_ast.number_expr a)
          (expr_ast.binary_expr '*' (expr_ast.number_expr b) (expr_ast.number_expr c)))
          ⟨[], []⟩) ∧
    parse_expression 100 ⟨tokenize initGlobals ("1+2*3".toList), []⟩ =
      PResult.ok (expr_ast.binary_expr '+' (expr_ast.number_expr 1)
        (expr_ast.binary_expr '*' (expr_ast.number_expr 2) (expr_ast.number_expr 3)))
        ⟨[], []⟩ :=
  ⟨fun _ _ _ => rfl, rfl⟩

/-- C4.  Equal-precedence operators are left-associative (the comparison
against the next operator's precedence is strict, so a same-precedence
operator is folded by the outer loop instead of being absorbed
recursively): `a - b - c` parses as `BinaryOp('-', BinaryOp('-', a, b), c)`
for arbitrary values, and `"1-2-3"` parses that way end to end. -/
theorem C4_equal_precedence_left_assoc :
    (∀ a b c : ℚ,
      parse_expression 100 ⟨[Tok.num a, Tok.chr '-', Tok.num b, Tok.chr '-', Tok.num c], []⟩ =
        PResult.ok (expr_ast.binary_expr '-'
          (expr_ast.binary_expr '-' (expr_ast.number_expr a) (expr_ast.number_expr b))
          (expr_ast.number_expr c)) ⟨[], []⟩) ∧
    parse_expression 100 ⟨tokenize initGlobals ("1-2-3".toList), []⟩ =
      PResult.ok (expr_ast.binary_expr '-'
        (expr_ast.binary_expr '-' (expr_ast.number_expr 1) (expr_ast.number_expr 2))
        (expr_ast.number_expr 3)) ⟨[], []⟩ :=
  ⟨fun _ _ _ => rfl, rfl⟩

/-! ## C5 — the precedence lookup -/

/-- C5.  `get_token_precedence` returns `-1` when the current token is
not a literal character, when its character code is not ASCII, and when
its table entry is non-positive (absent keys read as the default `0`);
otherwise it returns the strictly positive table entry, and the table
maps `'<'`,`'>'` to 10, `'+'`,`'-'` to 20, `'*'`,`'/'` to 40 and every
other character to 0. -/
theorem C5_token_precedence :
    (∀ s, (∀ c, current_token s ≠ Tok.chr c) → get_token_precedence s = -1) ∧
    (∀ s c, current_token s = Tok.chr c → 127 < c.toNat → get_token_precedence s = -1) ∧
    (∀ s c, current_token s = Tok.chr c → c.toNat ≤ 127 → binop_precedence c ≤ 0 →
      get_token_precedence s = -1) ∧
    (∀ s c, current_token s = Tok.chr c → c.toNat ≤ 127 → 0 < binop_precedence c →
      get_token_precedence s = binop_precedence c) ∧
    (∀ c, c ∉ (['<', '>', '+', '-', '*', '/'] : List Char) → binop_precedence c = 0) ∧
    binop_precedence '<' = 10 ∧ binop_precedence '>' = 10 ∧
    binop_precedence '+' = 20 ∧ binop_precedence '-' = 20 ∧
    binop_precedence '*' = 40 ∧ binop_precedence '/' = 40 := by
  refine ⟨?_, ?_, ?_, ?_, ?_, rfl, rfl, rfl, rfl, rfl, rfl⟩
  · intro s h
    cases ht : current_token s with
    | chr c => exact absurd ht (h c)
    | _ =>
      simp [get_token_precedence, ht, tokInt, isascii, tok_eof, tok_def, tok_extern,
        tok_identifier, tok_number]
  · intro s c ht hc
    simp [get_token_precedence, ht, tokInt, isascii]
    omega
  · intro s c ht hc hp
    have hascii : isascii (tokInt (Tok.chr c)) = true := by
      simp [isascii, tokInt]; omega
    simp [get_token_precedence, ht, hascii, tokInt, Char.ofNat_toNat, hp]
  · intro s c ht hc hp
    have hnle : ¬ (binop_precedence c ≤ 0) := by omega
    have hascii : isascii ((c.toNat : Int)) = true := by simp [isascii]; omega
    simp [get_token_precedence, ht, tokInt, hascii, Char.ofNat_toNat, hnle]
  · intro c hc
    unfold binop_precedence
    split_ifs with h1 h2 h3 h4 h5 h6 <;> simp_all

/-- C5, witness: the lookup at concrete states — end-of-input and a
token absent from the table give `-1`, `'+'` gives 20. -/
theorem C5_token_precedence_witness :
    get_token_precedence ⟨[], []⟩ = -1 ∧
    get_token_precedence ⟨[Tok.chr '+'], []⟩ = 20 ∧
    get_token_precedence ⟨[Tok.chr '%'], []⟩ = -1 := by
  refine ⟨?_, ?_, ?_⟩
  · exact C5_token_precedence.1 ⟨[], []⟩ (by intro c h; simp [current_token] at h)
  · have h := C5_token_precedence.2.2.2.1 ⟨[Tok.chr '+'], []⟩ '+' rfl (by decide) (by decide)
    simpa using h
  · exact C5_token_precedence.2.2.1 ⟨[Tok.chr '%'], []⟩ '%' rfl (by decide) (by decide)

/-! ## C8 — anonymous top-level expressions -/

/-- C8.  Whenever `parse_top_level_expr` succeeds, its result is exactly
the parsed expression wrapped in a `function_ast` whose prototype has the
empty string as name and an empty parameter list. -/
theorem C8_top_level_anonymous :
    ∀ fuel s f s1, parse_top_level_expr fuel s = PResult.ok f s1 →
      f.proto = ⟨"", []⟩ ∧ parse_expression fuel s = PResult.ok f.body s1 := by
  intro fuel s f s1 h
  unfold parse_top_level_expr at h
  cases he : parse_expression fuel s with
  | ok e s2 =>
    rw [he] at h
    cases h
    exact ⟨rfl, rfl⟩
  | fail s2 => rw [he] at h; exact absurd h (by simp)
  | timeout => rw [he] at h; exact absurd h (by simp)

/-- C8, witness: the wrapping at the concrete input `1`. -/
theorem C8_top_level_anonymous_witness :
    (function_ast.mk ⟨"", []⟩ (expr_ast.number_expr 1)).proto = ⟨"", []⟩ ∧
    parse_expression 100 ⟨[Tok.num 1], []⟩ =
      PResult.ok (function_ast.mk ⟨"", []⟩ (expr_ast.number_expr 1)).body ⟨[], []⟩ :=
  C8_top_level_anonymous 100 ⟨[Tok.num 1], []⟩ _ ⟨[], []⟩ rfl

/-! ## C9 — whitespace-separated parameter lists -/

/-- The argument-name loop run on a parameter list followed by a comma:
it collects the identifiers and stops with the comma as the current
token. -/
theorem read_proto_args_comma (ps : List String) :
    ∀ (t : Tok) (acc : List String) (rest : List Tok),
      read_proto_args (t :: (ps.map Tok.ident ++ Tok.chr ',' :: rest)) acc =
        (acc ++ ps, Tok.chr ',' :: rest) := by
  induction ps with
  | nil => intro t acc rest; simp [read_proto_args]
  | cons n ps ih =>
    intro t acc rest
    simp only [List.map_cons, List.cons_append]
    rw [read_proto_args]
    simp [ih (Tok.ident n) (acc ++ [n]) rest]

/-- C9.  Prototype parameters are whitespace-delimited identifiers:
`"def foo(x y) x+y"` parses to
`Function(Prototype("foo", ["x","y"]), BinaryOp('+', x, y))`, and a `','`
after any (possibly empty) run of parameter identifiers makes
`parse_prototype` fail with the diagnostic naming the comma (character
code 44) as the offending token. -/
theorem C9_params_whitespace_no_commas :
    parse_definition 100 ⟨tokenize initGlobals ("def foo(x y) x+y".toList), []⟩ =
      PResult.ok ⟨⟨"foo", ["x", "y"]⟩,
        expr_ast.binary_expr '+' (expr_ast.variable_expr "x") (expr_ast.variable_expr "y")⟩
        ⟨[], []⟩ ∧
    (∀ (fn : String) (ps : List String) (rest : List Tok) (lg : List String),
      parse_prototype ⟨Tok.ident fn :: Tok.chr '(' :: (ps.map Tok.ident ++ Tok.chr ',' :: rest), lg⟩ =
        PResult.fail ⟨Tok.chr ',' :: rest,
          lg ++ ["Expected \x27)\x27 in prototype, got 44 instead."]⟩) := by
  constructor
  · rfl
  · intro fn ps rest lg
    unfold parse_prototype
    simp only [current_token, get_next_token, List.tail_cons, List.headD_cons]
    rw [read_proto_args_comma ps]
    rfl


/-! ## C6 - the failure/diagnostic contract -/

/-- Log contract for one parser result relative to the entry state:
success leaves the diagnostic log unchanged; failure appends exactly one
diagnostic. -/
def log_ok_res {α : Type} (s : PState) (r : PResult α) : Prop :=
  (∀ a s2, r = PResult.ok a s2 → s2.log = s.log) ∧
  (∀ s2, r = PResult.fail s2 → ∃ msg, s2.log = s.log ++ [msg])

theorem log_ok_res_ok {α : Type} {s s2 : PState} {a : α} (h : s2.log = s.log) :
    log_ok_res s (PResult.ok a s2) := by
  constructor
  · intro a' s' he; cases he; exact h
  · intro s' he; cases he

theorem log_ok_res_fail {α : Type} {s s2 : PState} (h : ∃ msg, s2.log = s.log ++ [msg]) :
    log_ok_res (α := α) s (PResult.fail s2) := by
  constructor
  · intro a' s' he; cases he
  · intro s' he; cases he; exact h

theorem log_ok_res_timeout {α : Type} {s : PState} : log_ok_res (α := α) s PResult.timeout := by
  constructor
  · intro a' s' he; cases he
  · intro s' he; cases he

theorem log_ok_res_log_error {α : Type} {s s2 : PState} (msg : String) (h : s2.log = s.log) :
    log_ok_res (α := α) s (PResult.fail (log_error msg s2)) :=
  log_ok_res_fail ⟨msg, by rw [log_error_log, h]⟩

theorem parse_log_contract : ∀ fuel,
    (∀ s, log_ok_res s (parse_paren_expr fuel s)) ∧
    (∀ s, log_ok_res s (parse_identifier_expr fuel s)) ∧
    (∀ args s, log_ok_res s (parse_call_args fuel args s)) ∧
    (∀ s, log_ok_res s (parse_primary fuel s)) ∧
    (∀ ep lhs s, log_ok_res s (parse_binop_rhs fuel ep lhs s)) ∧
    (∀ s, log_ok_res s (parse_expression fuel s)) := by
  intro fuel
  induction fuel with
  | zero =>
    exact ⟨fun s => log_ok_res_timeout, fun s => log_ok_res_timeout,
      fun args s => log_ok_res_timeout, fun s => log_ok_res_timeout,
      fun ep lhs s => log_ok_res_timeout, fun s => log_ok_res_timeout⟩
  | succ n ih =>
    obtain ⟨ihparen, ihident, ihargs, ihprim, ihbin, ihexp⟩ := ih
    have Hparen : ∀ s, log_ok_res s (parse_paren_expr (n + 1) s) := by
      intro s
      rw [parse_paren_expr]
      rcases hpe : parse_expression n (get_next_token s) with ⟨v, s2⟩ | s2 | _ <;>
        simp only [hpe]
      · have hl : s2.log = s.log := by
          rw [(ihexp (get_next_token s)).1 v s2 hpe, get_next_token_log]
        by_cases hc : current_token s2 ≠ Tok.chr ')'
        · rw [if_pos hc]
          exact log_ok_res_log_error _ hl
        · rw [if_neg hc]
          exact log_ok_res_ok (by rw [get_next_token_log, hl])
      · obtain ⟨msg, hm⟩ := (ihexp (get_next_token s)).2 s2 hpe
        exact log_ok_res_fail ⟨msg, by rw [hm, get_next_token_log]⟩
      · exact log_ok_res_timeout
    have Hargs : ∀ args s, log_ok_res s (parse_call_args (n + 1) args s) := by
      intro args s
      rw [parse_call_args]
      rcases hpe : parse_expression n s with ⟨arg, s1⟩ | s1 | _ <;> simp only [hpe]
      · have hl : s1.log = s.log := (ihexp s).1 arg s1 hpe
        by_cases h1 : current_token s1 = Tok.chr ')'
        · rw [if_pos h1]
          exact log_ok_res_ok hl
        · rw [if_neg h1]
          by_cases h2 : current_token s1 ≠ Tok.chr ','
          · rw [if_pos h2]
            exact log_ok_res_log_error _ hl
          · rw [if_neg h2]
            obtain ⟨hok, hfail⟩ := ihargs (args ++ [arg]) (get_next_token s1)
            constructor
            · intro a s2 he
              rw [hok a s2 he, get_next_token_log, hl]
            · intro s2 he
              obtain ⟨msg, hm⟩ := hfail s2 he
              exact ⟨msg, by rw [hm, get_next_token_log, hl]⟩
      · exact log_ok_res_fail ((ihexp s).2 s1 hpe)
      · exact log_ok_res_timeout
    have Hident : ∀ s, log_ok_res s (parse_identifier_expr (n + 1) s) := by
      intro s
      rw [parse_identifier_expr]
      dsimp only
      by_cases h1 : current_token (get_next_token s) ≠ Tok.chr '('
      · rw [if_pos h1]
        exact log_ok_res_ok rfl
      · rw [if_neg h1]
        by_cases h2 : current_token (get_next_token (get_next_token s)) = Tok.chr ')'
        · rw [if_pos h2]
          exact log_ok_res_ok rfl
        · rw [if_neg h2]
          rcases hca : parse_call_args n [] (get_next_token (get_next_token s)) with
            ⟨args2, s3⟩ | s3 | _ <;> simp only [hca]
          · have hl : s3.log = s.log := by
              rw [(ihargs [] _).1 args2 s3 hca, get_next_token_log, get_next_token_log]
            exact log_ok_res_ok (by rw [get_next_token_log, hl])
          · obtain ⟨msg, hm⟩ := (ihargs [] _).2 s3 hca
            exact log_ok_res_fail ⟨msg,
              by rw [hm, get_next_token_log, get_next_token_log]⟩
          · exact log_ok_res_timeout
    have Hprim : ∀ s, log_ok_res s (parse_primary (n + 1) s) := by
      intro s
      rw [parse_primary]
      split
      · exact ihident s
      · exact log_ok_res_ok rfl
      · exact ihparen s
      · exact log_ok_res_log_error _ rfl
    have Hbin : ∀ ep lhs s, log_ok_res s (parse_binop_rhs (n + 1) ep lhs s) := by
      intro ep lhs s
      rw [parse_binop_rhs]
      dsimp only
      by_cases h1 : get_token_precedence s < ep
      · rw [if_pos h1]
        exact log_ok_res_ok rfl
      · rw [if_neg h1]
        rcases hpp : parse_primary n (get_next_token s) with ⟨rhs, s2⟩ | s2 | _ <;>
          simp only [hpp]
        · have hl2 : s2.log = s.log := by
            rw [(ihprim (get_next_token s)).1 rhs s2 hpp, get_next_token_log]
          by_cases h2 : get_token_precedence s < get_token_precedence s2
          · rw [if_pos h2]
            rcases hbr : parse_binop_rhs n (get_token_precedence s + 1) rhs s2 with
              ⟨rhs2, s3⟩ | s3 | _ <;> simp only [hbr]
            · have hl3 : s3.log = s.log := by
                rw [(ihbin _ rhs s2).1 rhs2 s3 hbr, hl2]
              constructor
              · intro a s4 he
                rw [(ihbin _ _ s3).1 a s4 he, hl3]
              · intro s4 he
                obtain ⟨msg, hm⟩ := (ihbin _ _ s3).2 s4 he
                exact ⟨msg, by rw [hm, hl3]⟩
            · obtain ⟨msg, hm⟩ := (ihbin _ rhs s2).2 s3 hbr
              exact log_ok_res_fail ⟨msg, by rw [hm, hl2]⟩
            · exact log_ok_res_timeout
          · rw [if_neg h2]
            constructor
            · intro a s4 he
              rw [(ihbin _ _ s2).1 a s4 he, hl2]
            · intro s4 he
              obtain ⟨msg, hm⟩ := (ihbin _ _ s2).2 s4 he
              exact ⟨msg, by rw [hm, hl2]⟩
        · obtain ⟨msg, hm⟩ := (ihprim (get_next_token s)).2 s2 hpp
          exact log_ok_res_fail ⟨msg, by rw [hm, get_next_token_log]⟩
        · exact log_ok_res_timeout
    have Hexp : ∀ s, log_ok_res s (parse_expression (n + 1) s) := by
      intro s
      rw [parse_expression]
      rcases hpp : parse_primary n s with ⟨lhs, s1⟩ | s1 | _ <;> simp only [hpp]
      · have hl : s1.log = s.log := (ihprim s).1 lhs s1 hpp
        constructor
        · intro a s2 he
          rw [(ihbin 0 lhs s1).1 a s2 he, hl]
        · intro s2 he
          obtain ⟨msg, hm⟩ := (ihbin 0 lhs s1).2 s2 he
          exact ⟨msg, by rw [hm, hl]⟩
      · exact log_ok_res_fail ((ihprim s).2 s1 hpp)
      · exact log_ok_res_timeout
    exact ⟨Hparen, Hident, Hargs, Hprim, Hbin, Hexp⟩

theorem parse_prototype_log : ∀ s, log_ok_res s (parse_prototype s) := by
  intro s
  rw [parse_prototype]
  split
  · by_cases h1 : current_token (get_next_token s) ≠ Tok.chr '('
    · rw [if_pos h1]
      exact log_ok_res_log_error _ (get_next_token_log s)
    · rw [if_neg h1]
      rcases hra : read_proto_args (get_next_token s).toks [] with ⟨ns, toks2⟩
      simp only [hra]
      by_cases h2 : current_token ⟨toks2, (get_next_token s).log⟩ ≠ Tok.chr ')'
      · rw [if_pos h2]
        exact log_ok_res_log_error _ (get_next_token_log s)
      · rw [if_neg h2]
        exact log_ok_res_ok (get_next_token_log s)
  · exact log_ok_res_log_error _ rfl

/-- C6.  Error contract of the parser entry points: whenever
`parse_definition`, `parse_extern`, `parse_top_level_expr` or
`parse_expression` fails, exactly one diagnostic (describing the
offending token) has been appended to the error channel, and the entry
point returns the distinguished no-result value `PResult.fail`, which by
construction carries no AST node. -/
theorem C6_error_contract :
    (∀ fuel s s2, parse_definition fuel s = PResult.fail s2 →
      ∃ msg, s2.log = s.log ++ [msg]) ∧
    (∀ s s2, parse_extern s = PResult.fail s2 → ∃ msg, s2.log = s.log ++ [msg]) ∧
    (∀ fuel s s2, parse_top_level_expr fuel s = PResult.fail s2 →
      ∃ msg, s2.log = s.log ++ [msg]) ∧
    (∀ fuel s s2, parse_expression fuel s = PResult.fail s2 →
      ∃ msg, s2.log = s.log ++ [msg]) := by
  refine ⟨?_, ?_, ?_, ?_⟩
  · intro fuel s s2 h
    rw [parse_definition] at h
    rcases hpr : parse_prototype (get_next_token s) with ⟨proto, s3⟩ | s3 | _ <;>
      simp only [hpr] at h
    · have hl : s3.log = s.log := by
        rw [(parse_prototype_log (get_next_token s)).1 proto s3 hpr, get_next_token_log]
      rcases hpe : parse_expression fuel s3 with ⟨e, s4⟩ | s4 | _ <;> simp only [hpe] at h
      · simp at h
      · simp only [PResult.fail.injEq] at h
        obtain ⟨msg, hm⟩ := ((parse_log_contract fuel).2.2.2.2.2 s3).2 s4 hpe
        exact ⟨msg, by rw [← h, hm, hl]⟩
      · simp at h
    · simp only [PResult.fail.injEq] at h
      obtain ⟨msg, hm⟩ := (parse_prototype_log (get_next_token s)).2 s3 hpr
      exact ⟨msg, by rw [← h, hm, get_next_token_log]⟩
    · simp at h
  · intro s s2 h
    rw [ parse_extern] at h
    obtain ⟨msg, hm⟩ := (parse_prototype_log (get_next_token s)).2 s2 h
    exact ⟨msg, by rw [hm, get_next_token_log]⟩
  · intro fuel s s2 h
    rw [parse_top_level_expr] at h
    rcases hpe : parse_expression fuel s with ⟨e, s3⟩ | s3 | _ <;> simp only [hpe] at h
    · simp at h
    · simp only [PResult.fail.injEq] at h
      obtain ⟨msg, hm⟩ := ((parse_log_contract fuel).2.2.2.2.2 s).2 s3 hpe
      exact ⟨msg, by rw [← h, hm]⟩
    · simp at h
  · intro fuel s s2 h
    exact ((parse_log_contract fuel).2.2.2.2.2 s).2 s2 h

/-- C6, witness: parsing the lone token `')'` as an expression fails and
appends the diagnostic naming token 41. -/
theorem C6_error_contract_witness :
    ∃ msg, (PState.mk [Tok.chr ')'] ["Expected expression, got 41 instead"]).log =
      (PState.mk [Tok.chr ')'] []).log ++ [msg] :=
  C6_error_contract.2.2.2 100 ⟨[Tok.chr ')'], []⟩
    ⟨[Tok.chr ')'], ["Expected expression, got 41 instead"]⟩ rfl


/-! ## C7 - the BinaryOp operator invariant -/

mutual

/-- Every `binary_expr` operator in the tree is a key of the precedence
table (one of the six operator characters). -/
def binop_ok : expr_ast → Bool
  | expr_ast.number_expr _ => true
  | expr_ast.variable_expr _ => true
  | expr_ast.binary_expr op l r =>
      (['<', '>', '+', '-', '*', '/'] : List Char).contains op && binop_ok l && binop_ok r
  | expr_ast.call_expr _ args => binop_ok_list args

/-- `binop_ok` on every element of a list. -/
def binop_ok_list : List expr_ast → Bool
  | [] => true
  | e :: es => binop_ok e && binop_ok_list es

end

theorem binop_ok_list_nil : binop_ok_list [] = true := rfl

theorem binop_ok_list_cons (e : expr_ast) (es : List expr_ast) :
    binop_ok_list (e :: es) = (binop_ok e && binop_ok_list es) := rfl

theorem binop_ok_number (v : ℚ) : binop_ok (expr_ast.number_expr v) = true := rfl

theorem binop_ok_variable (nm : String) : binop_ok (expr_ast.variable_expr nm) = true := rfl

theorem binop_ok_binary (op : Char) (l r : expr_ast) :
    binop_ok (expr_ast.binary_expr op l r) =
      ((['<', '>', '+', '-', '*', '/'] : List Char).contains op && binop_ok l && binop_ok r) := rfl

theorem binop_ok_call (id : String) (args : List expr_ast) :
    binop_ok (expr_ast.call_expr id args) = binop_ok_list args := rfl

theorem binop_ok_list_append {xs : List expr_ast} {x : expr_ast}
    (hxs : binop_ok_list xs = true) (hx : binop_ok x = true) :
    binop_ok_list (xs ++ [x]) = true := by
  induction xs with
  | nil => simp [binop_ok_list_nil, binop_ok_list_cons, hx]
  | cons e es ih =>
    rw [binop_ok_list_cons] at hxs
    rw [List.cons_append, binop_ok_list_cons]
    simp only [Bool.and_eq_true] at hxs
    simp [hxs.1, ih hxs.2]

theorem contains_of_binop_pos {c : Char} (h : 0 < binop_precedence c) :
    (['<', '>', '+', '-', '*', '/'] : List Char).contains c = true := by
  unfold binop_precedence at h
  split_ifs at h with h1 h2 h3 h4 h5 h6 <;> simp_all

/-- A nonnegative `get_token_precedence` forces the current token to be a
literal operator character with strictly positive table entry, and the
character the parser extracts as `binary_op` is that character. -/
theorem binop_char_of_precedence {s : PState} (h : 0 ≤ get_token_precedence s) :
    ∃ c, current_token s = Tok.chr c ∧ 0 < binop_precedence c := by
  unfold get_token_precedence at h
  by_cases ha : isascii (tokInt (current_token s))
  · cases ht : current_token s with
    | chr c =>
      refine ⟨c, rfl, ?_⟩
      rw [ht] at h ha
      simp only [tokInt] at h ha
      rw [ha] at h
      simp only [Bool.not_true, Bool.false_eq_true, if_false] at h
      rw [Int.toNat_natCast, Char.ofNat_toNat] at h
      by_cases hp : binop_precedence c ≤ 0
      · rw [if_pos hp] at h; omega
      · omega
    | eof => rw [ht] at ha; simp [tokInt, isascii, tok_eof] at ha
    | tdef => rw [ht] at ha; simp [tokInt, isascii, tok_def] at ha
    | textern => rw [ht] at ha; simp [tokInt, isascii, tok_extern] at ha
    | ident n => rw [ht] at ha; simp [tokInt, isascii, tok_identifier] at ha
    | num v => rw [ht] at ha; simp [tokInt, isascii, tok_number] at ha
  · simp only [ha, Bool.not_false, if_pos] at h
    omega

theorem parse_binop_invariant : ∀ fuel,
    (∀ s a s2, parse_paren_expr fuel s = PResult.ok a s2 → binop_ok a = true) ∧
    (∀ s a s2, parse_identifier_expr fuel s = PResult.ok a s2 → binop_ok a = true) ∧
    (∀ args s a s2, parse_call_args fuel args s = PResult.ok a s2 →
      binop_ok_list args = true → binop_ok_list a = true) ∧
    (∀ s a s2, parse_primary fuel s = PResult.ok a s2 → binop_ok a = true) ∧
    (∀ ep lhs s a s2, 0 ≤ ep → binop_ok lhs = true →
      parse_binop_rhs fuel ep lhs s = PResult.ok a s2 → binop_ok a = true) ∧
    (∀ s a s2, parse_expression fuel s = PResult.ok a s2 → binop_ok a = true) := by
  intro fuel
  induction fuel with
  | zero =>
    exact ⟨fun s a s2 h => PResult.noConfusion h,
      fun s a s2 h => PResult.noConfusion h,
      fun args s a s2 h => PResult.noConfusion h,
      fun s a s2 h => PResult.noConfusion h,
      fun ep lhs s a s2 _ _ h => PResult.noConfusion h,
      fun s a s2 h => PResult.noConfusion h⟩
  | succ n ih =>
    obtain ⟨ihparen, ihident, ihargs, ihprim, ihbin, ihexp⟩ := ih
    have Hparen : ∀ s a s2, parse_paren_expr (n + 1) s = PResult.ok a s2 →
        binop_ok a = true := by
      intro s a s2 h
      rw [parse_paren_expr] at h
      rcases hpe : parse_expression n (get_next_token s) with ⟨v, s3⟩ | s3 | _ <;>
        simp only [hpe] at h
      · by_cases hc : current_token s3 ≠ Tok.chr ')'
        · rw [if_pos hc] at h; simp at h
        · rw [if_neg hc] at h
          simp only [PResult.ok.injEq] at h
          rw [← h.1]
          exact ihexp _ v s3 hpe
      · simp at h
      · simp at h
    have Hident : ∀ s a s2, parse_identifier_expr (n + 1) s = PResult.ok a s2 →
        binop_ok a = true := by
      intro s a s2 h
      rw [parse_identifier_expr] at h
      dsimp only at h
      by_cases h1 : current_token (get_next_token s) ≠ Tok.chr '('
      · rw [if_pos h1] at h
        simp only [PResult.ok.injEq] at h
        rw [← h.1]
        rfl
      · rw [if_neg h1] at h
        by_cases h2 : current_token (get_next_token (get_next_token s)) = Tok.chr ')'
        · rw [if_pos h2] at h
          simp only [PResult.ok.injEq] at h
          rw [← h.1]
          rfl
        · rw [if_neg h2] at h
          rcases hca : parse_call_args n [] (get_next_token (get_next_token s)) with
            ⟨args2, s3⟩ | s3 | _ <;> simp only [hca] at h
          · simp only [PResult.ok.injEq] at h
            rw [← h.1]
            have hl : binop_ok_list args2 = true := ihargs [] _ args2 s3 hca rfl
            simp [binop_ok_call, hl]
          · simp at h
          · simp at h
    have Hargs : ∀ args s a s2, parse_call_args (n + 1) args s = PResult.ok a s2 →
        binop_ok_list args = true → binop_ok_list a = true := by
      intro args s a s2 h hargs
      rw [parse_call_args] at h
      rcases hpe : parse_expression n s with ⟨arg, s1⟩ | s1 | _ <;> simp only [hpe] at h
      · have harg : binop_ok arg = true := ihexp s arg s1 hpe
        by_cases h1 : current_token s1 = Tok.chr ')'
        · rw [if_pos h1] at h
          simp only [PResult.ok.injEq] at h
          rw [← h.1]
          exact binop_ok_list_append hargs harg
        · rw [if_neg h1] at h
          by_cases h2 : current_token s1 ≠ Tok.chr ','
          · rw [if_pos h2] at h; simp at h
          · rw [if_neg h2] at h
            exact ihargs (args ++ [arg]) (get_next_token s1) a s2 h
              (binop_ok_list_append hargs harg)
      · simp at h
      · simp at h
    have Hprim : ∀ s a s2, parse_primary (n + 1) s = PResult.ok a s2 →
        binop_ok a = true := by
      intro s a s2 h
      rw [parse_primary] at h
      split at h
      · exact ihident _ a s2 h
      · unfold parse_number_expr at h
        simp only [PResult.ok.injEq] at h
        rw [← h.1]
        rfl
      · exact ihparen _ a s2 h
      · simp at h
    have Hbin : ∀ ep lhs s a s2, 0 ≤ ep → binop_ok lhs = true →
        parse_binop_rhs (n + 1) ep lhs s = PResult.ok a s2 → binop_ok a = true := by
      intro ep lhs s a s2 hep hlhs h
      rw [parse_binop_rhs] at h
      dsimp only at h
      by_cases h1 : get_token_precedence s < ep
      · rw [if_pos h1] at h
        simp only [PResult.ok.injEq] at h
        rw [← h.1]
        exact hlhs
      · rw [if_neg h1] at h
        have hge : 0 ≤ get_token_precedence s := by omega
        obtain ⟨c, hcur, hcpos⟩ := binop_char_of_precedence hge
        rw [hcur] at h
        dsimp only at h
        have hcontains := contains_of_binop_pos hcpos
        rcases hpp : parse_primary n (get_next_token s) with ⟨rhs, s3⟩ | s3 | _ <;>
          simp only [hpp] at h
        · have hrhs : binop_ok rhs = true := ihprim _ rhs s3 hpp
          by_cases h2 : get_token_precedence s < get_token_precedence s3
          · rw [if_pos h2] at h
            rcases hbr : parse_binop_rhs n (get_token_precedence s + 1) rhs s3 with
              ⟨rhs2, s4⟩ | s4 | _ <;> simp only [hbr] at h
            · have hrhs2 : binop_ok rhs2 = true :=
                ihbin _ rhs s3 rhs2 s4 (by omega) hrhs hbr
              exact ihbin ep _ s4 a s2 hep (by rw [binop_ok_binary, hcontains, hlhs, hrhs2]; decide) h
            · simp at h
            · simp at h
          · rw [if_neg h2] at h
            exact ihbin ep _ s3 a s2 hep (by rw [binop_ok_binary, hcontains, hlhs, hrhs]; decide) h
        · simp at h
        · simp at h
    have Hexp : ∀ s a s2, parse_expression (n + 1) s = PResult.ok a s2 →
        binop_ok a = true := by
      intro s a s2 h
      rw [parse_expression] at h
      rcases hpp : parse_primary n s with ⟨lhs, s1⟩ | s1 | _ <;> simp only [hpp] at h
      · exact ihbin 0 lhs s1 a s2 (by omega) (ihprim s lhs s1 hpp) h
      · simp at h
      · simp at h
    exact ⟨Hparen, Hident, Hargs, Hprim, Hbin, Hexp⟩

/-- C7.  Every `binary_expr` node in any AST returned by a parser entry
point carries an operator character that is a key of the precedence
table — one of `'<'`, `'>'`, `'+'`, `'-'`, `'*'`, `'/'` (the parser
constructs a `binary_expr` only after seeing a strictly positive
precedence for the current token).  `parse_extern` returns a prototype,
which contains no expressions. -/
theorem C7_binop_operators_in_table :
    (∀ fuel s f s2, parse_definition fuel s = PResult.ok f s2 → binop_ok f.body = true) ∧
    (∀ fuel s f s2, parse_top_level_expr fuel s = PResult.ok f s2 → binop_ok f.body = true) ∧
    (∀ fuel s e s2, parse_expression fuel s = PResult.ok e s2 → binop_ok e = true) := by
  refine ⟨?_, ?_, ?_⟩
  · intro fuel s f s2 h
    rw [parse_definition] at h
    rcases hpr : parse_prototype (get_next_token s) with ⟨proto, s3⟩ | s3 | _ <;>
      simp only [hpr] at h
    · rcases hpe : parse_expression fuel s3 with ⟨e, s4⟩ | s4 | _ <;> simp only [hpe] at h
      · simp only [PResult.ok.injEq] at h
        rw [← h.1]
        exact (parse_binop_invariant fuel).2.2.2.2.2 s3 e s4 hpe
      · simp at h
      · simp at h
    · simp at h
    · simp at h
  · intro fuel s f s2 h
    rw [parse_top_level_expr] at h
    rcases hpe : parse_expression fuel s with ⟨e, s3⟩ | s3 | _ <;> simp only [hpe] at h
    · simp only [PResult.ok.injEq] at h
      rw [← h.1]
      exact (parse_binop_invariant fuel).2.2.2.2.2 s e s3 hpe
    · simp at h
    · simp at h
  · intro fuel s e s2 h
    exact (parse_binop_invariant fuel).2.2.2.2.2 s e s2 h

/-- C7, witness: the `'+'` node produced by parsing `x+y` satisfies the
invariant. -/
theorem C7_binop_operators_in_table_witness :
    binop_ok (expr_ast.binary_expr '+'
      (expr_ast.variable_expr "x") (expr_ast.variable_expr "y")) = true :=
  C7_binop_operators_in_table.2.2 100
    ⟨[Tok.ident "x", Tok.chr '+', Tok.ident "y"], []⟩ _ ⟨[], []⟩ rfl


/-! ## C10 - termination of the parser -/

theorem get_next_token_toks (s : PState) : (get_next_token s).toks = s.toks.tail := rfl

theorem parse_consume : ∀ fuel,
    (∀ s a s2, parse_paren_expr fuel s = PResult.ok a s2 →
      s2.toks.length < s.toks.length) ∧
    (∀ s a s2, parse_identifier_expr fuel s = PResult.ok a s2 → s.toks ≠ [] →
      s2.toks.length < s.toks.length) ∧
    (∀ args s a s2, parse_call_args fuel args s = PResult.ok a s2 →
      s2.toks.length ≤ s.toks.length) ∧
    (∀ s a s2, parse_primary fuel s = PResult.ok a s2 →
      s2.toks.length < s.toks.length) ∧
    (∀ ep lhs s a s2, parse_binop_rhs fuel ep lhs s = PResult.ok a s2 →
      s2.toks.length ≤ s.toks.length) ∧
    (∀ s a s2, parse_expression fuel s = PResult.ok a s2 →
      s2.toks.length < s.toks.length) := by
  intro fuel
  induction fuel with
  | zero =>
    exact ⟨fun s a s2 h => PResult.noConfusion h,
      fun s a s2 h => PResult.noConfusion h,
      fun args s a s2 h => PResult.noConfusion h,
      fun s a s2 h => PResult.noConfusion h,
      fun ep lhs s a s2 h => PResult.noConfusion h,
      fun s a s2 h => PResult.noConfusion h⟩
  | succ n ih =>
    obtain ⟨ihparen, ihident, ihargs, ihprim, ihbin, ihexp⟩ := ih
    have Hparen : ∀ s a s2, parse_paren_expr (n + 1) s = PResult.ok a s2 →
        s2.toks.length < s.toks.length := by
      intro s a s2 h
      rw [parse_paren_expr] at h
      rcases hpe : parse_expression n (get_next_token s) with ⟨v, s3⟩ | s3 | _ <;>
        simp only [hpe] at h
      · by_cases hc : current_token s3 ≠ Tok.chr ')'
        · rw [if_pos hc] at h; simp at h
        · rw [if_neg hc] at h
          simp only [PResult.ok.injEq] at h
          have h1 := ihexp _ v s3 hpe
          have h2 := get_next_token_length_le s3
          have h3 := get_next_token_length_le s
          rw [← h.2]
          omega
      · simp at h
      · simp at h
    have Hident : ∀ s a s2, parse_identifier_expr (n + 1) s = PResult.ok a s2 →
        s.toks ≠ [] → s2.toks.length < s.toks.length := by
      intro s a s2 h hne
      rw [parse_identifier_expr] at h
      dsimp only at h
      by_cases h1 : current_token (get_next_token s) ≠ Tok.chr '('
      · rw [if_pos h1] at h
        simp only [PResult.ok.injEq] at h
        rw [← h.2]
        exact get_next_token_length_lt hne
      · rw [if_neg h1] at h
        by_cases h2 : current_token (get_next_token (get_next_token s)) = Tok.chr ')'
        · rw [if_pos h2] at h
          simp only [PResult.ok.injEq] at h
          have ha := get_next_token_length_le (get_next_token (get_next_token s))
          have hb := get_next_token_length_le (get_next_token s)
          have hc := get_next_token_length_lt hne
          rw [← h.2]
          omega
        · rw [if_neg h2] at h
          rcases hca : parse_call_args n [] (get_next_token (get_next_token s)) with
            ⟨args2, s3⟩ | s3 | _ <;> simp only [hca] at h
          · simp only [PResult.ok.injEq] at h
            have ha := ihargs [] _ args2 s3 hca
            have hb := get_next_token_length_le s3
            have hc := get_next_token_length_le (get_next_token s)
            have hd := get_next_token_length_lt hne
            rw [← h.2]
            omega
          · simp at h
          · simp at h
    have Hargs : ∀ args s a s2, parse_call_args (n + 1) args s = PResult.ok a s2 →
        s2.toks.length ≤ s.toks.length := by
      intro args s a s2 h
      rw [parse_call_args] at h
      rcases hpe : parse_expression n s with ⟨arg, s1⟩ | s1 | _ <;> simp only [hpe] at h
      · have ha := ihexp s arg s1 hpe
        by_cases h1 : current_token s1 = Tok.chr ')'
        · rw [if_pos h1] at h
          simp only [PResult.ok.injEq] at h
          rw [← h.2]
          omega
        · rw [if_neg h1] at h
          by_cases h2 : current_token s1 ≠ Tok.chr ','
          · rw [if_pos h2] at h; simp at h
          · rw [if_neg h2] at h
            have hb := ihargs (args ++ [arg]) (get_next_token s1) a s2 h
            have hc := get_next_token_length_le s1
            omega
      · simp at h
      · simp at h
    have Hprim : ∀ s a s2, parse_primary (n + 1) s = PResult.ok a s2 →
        s2.toks.length < s.toks.length := by
      intro s a s2 h
      rw [parse_primary] at h
      split at h
      next name heq => exact ihident s a s2 h (current_token_ident_ne_nil heq)
      next v heq =>
        unfold parse_number_expr at h
        simp only [PResult.ok.injEq] at h
        rw [← h.2]
        exact get_next_token_length_lt (current_token_num_ne_nil heq)
      next heq => exact ihparen s a s2 h
      next => simp at h
    have Hbin : ∀ ep lhs s a s2, parse_binop_rhs (n + 1) ep lhs s = PResult.ok a s2 →
        s2.toks.length ≤ s.toks.length := by
      intro ep lhs s a s2 h
      rw [parse_binop_rhs] at h
      dsimp only at h
      by_cases h1 : get_token_precedence s < ep
      · rw [if_pos h1] at h
        simp only [PResult.ok.injEq] at h
        rw [← h.2]
      · rw [if_neg h1] at h
        rcases hpp : parse_primary n (get_next_token s) with ⟨rhs, s3⟩ | s3 | _ <;>
          simp only [hpp] at h
        · have ha := ihprim _ rhs s3 hpp
          have hb := get_next_token_length_le s
          by_cases h2 : get_token_precedence s < get_token_precedence s3
          · rw [if_pos h2] at h
            rcases hbr : parse_binop_rhs n (get_token_precedence s + 1) rhs s3 with
              ⟨rhs2, s4⟩ | s4 | _ <;> simp only [hbr] at h
            · have hc := ihbin _ rhs s3 rhs2 s4 hbr
              have hd := ihbin ep _ s4 a s2 h
              omega
            · simp at h
            · simp at h
          · rw [if_neg h2] at h
            have hc := ihbin ep _ s3 a s2 h
            omega
        · simp at h
        · simp at h
    have Hexp : ∀ s a s2, parse_expression (n + 1) s = PResult.ok a s2 →
        s2.toks.length < s.toks.length := by
      intro s a s2 h
      rw [parse_expression] at h
      rcases hpp : parse_primary n s with ⟨lhs, s1⟩ | s1 | _ <;> simp only [hpp] at h
      · have ha := ihprim s lhs s1 hpp
        have hb := ihbin 0 lhs s1 a s2 h
        omega
      · simp at h
      · simp at h
    exact ⟨Hparen, Hident, Hargs, Hprim, Hbin, Hexp⟩

theorem parse_primary_nil (lg : List String) (fuel : Nat) :
    ∃ s2, parse_primary (fuel + 1) ⟨[], lg⟩ = PResult.fail s2 :=
  ⟨_, rfl⟩

theorem parse_expression_nil (lg : List String) (fuel : Nat) :
    ∃ s2, parse_expression (fuel + 2) ⟨[], lg⟩ = PResult.fail s2 := by
  obtain ⟨s2, h⟩ := parse_primary_nil lg fuel
  exact ⟨s2, by rw [parse_expression, h]⟩

theorem get_next_token_nil {s : PState} (h : s.toks = []) :
    get_next_token s = ⟨[], s.log⟩ := by
  cases s
  simp_all [get_next_token]

theorem parse_nontimeout : ∀ fuel,
    (∀ s, 5 * s.toks.length + 5 ≤ fuel → parse_paren_expr fuel s ≠ PResult.timeout) ∧
    (∀ s, 5 * s.toks.length + 5 ≤ fuel → parse_identifier_expr fuel s ≠ PResult.timeout) ∧
    (∀ args s, 5 * s.toks.length + 8 ≤ fuel → parse_call_args fuel args s ≠ PResult.timeout) ∧
    (∀ s, 5 * s.toks.length + 6 ≤ fuel → parse_primary fuel s ≠ PResult.timeout) ∧
    (∀ ep lhs s, 5 * s.toks.length + 8 ≤ fuel → parse_binop_rhs fuel ep lhs s ≠ PResult.timeout) ∧
    (∀ s, 5 * s.toks.length + 7 ≤ fuel → parse_expression fuel s ≠ PResult.timeout) := by
  intro fuel
  induction fuel with
  | zero =>
    exact ⟨fun s hf => by omega, fun s hf => by omega, fun args s hf => by omega,
      fun s hf => by omega, fun ep lhs s hf => by omega, fun s hf => by omega⟩
  | succ n ih =>
    obtain ⟨ihparen, ihident, ihargs, ihprim, ihbin, ihexp⟩ := ih
    have Hparen : ∀ s, 5 * s.toks.length + 5 ≤ n + 1 →
        parse_paren_expr (n + 1) s ≠ PResult.timeout := by
      intro s hf
      rw [parse_paren_expr]
      cases hs : s.toks with
      | nil =>
        rw [get_next_token_nil hs]
        obtain ⟨k, rfl⟩ : ∃ k, n = k + 2 := ⟨n - 2, by rw [hs] at hf; simp at hf; omega⟩
        obtain ⟨s2, h2⟩ := parse_expression_nil s.log k
        rw [h2]
        simp
      | cons t ts =>
        have hlen : (get_next_token s).toks.length = ts.length := by
          simp [get_next_token, hs]
        have hslen : s.toks.length = ts.length + 1 := by rw [hs]; simp
        rcases hpe : parse_expression n (get_next_token s) with ⟨v, s3⟩ | s3 | _ <;>
          simp only [hpe]
        · split <;> simp
        · simp
        · exact absurd hpe (ihexp (get_next_token s) (by omega))
    have Hident : ∀ s, 5 * s.toks.length + 5 ≤ n + 1 →
        parse_identifier_expr (n + 1) s ≠ PResult.timeout := by
      intro s hf
      rw [parse_identifier_expr]
      dsimp only
      by_cases h1 : current_token (get_next_token s) ≠ Tok.chr '('
      · rw [if_pos h1]; simp
      · rw [if_neg h1]
        by_cases h2 : current_token (get_next_token (get_next_token s)) = Tok.chr ')'
        · rw [if_pos h2]; simp
        · rw [if_neg h2]
          have h1' : current_token (get_next_token s) = Tok.chr '(' := not_not.mp h1
          have htail : s.toks.tail ≠ [] := by
            rw [← get_next_token_toks s]
            exact current_token_chr_ne_nil h1'
          have hge : 2 ≤ s.toks.length := by
            rcases hs : s.toks with _ | ⟨t, ts⟩ <;> rw [hs] at htail
            · simp at htail
            · simp only [List.tail_cons] at htail
              have h3 := List.length_pos.mpr htail
              simp only [List.length_cons]
              omega
          have e1 : s.toks.tail.length = s.toks.length - 1 := List.length_tail _
          have e2 : s.toks.tail.tail.length = s.toks.tail.length - 1 := List.length_tail _
          have he : (get_next_token (get_next_token s)).toks = s.toks.tail.tail := rfl
          rcases hca : parse_call_args n [] (get_next_token (get_next_token s)) with
            ⟨args2, s3⟩ | s3 | _ <;> simp only [hca]
          · simp
          · simp
          · refine absurd hca (ihargs [] _ ?_)
            rw [he]
            omega
    have Hargs : ∀ args s, 5 * s.toks.length + 8 ≤ n + 1 →
        parse_call_args (n + 1) args s ≠ PResult.timeout := by
      intro args s hf
      rw [parse_call_args]
      rcases hpe : parse_expression n s with ⟨arg, s1⟩ | s1 | _ <;> simp only [hpe]
      · have hc := (parse_consume n).2.2.2.2.2 s arg s1 hpe
        by_cases h1 : current_token s1 = Tok.chr ')'
        · rw [if_pos h1]; simp
        · rw [if_neg h1]
          by_cases h2 : current_token s1 ≠ Tok.chr ','
          · rw [if_pos h2]; simp
          · rw [if_neg h2]
            have hle := get_next_token_length_le s1
            exact ihargs (args ++ [arg]) (get_next_token s1) (by omega)
      · simp
      · exact absurd hpe (ihexp s (by omega))
    have Hprim : ∀ s, 5 * s.toks.length + 6 ≤ n + 1 →
        parse_primary (n + 1) s ≠ PResult.timeout := by
      intro s hf
      rw [parse_primary]
      split
      · exact ihident s (by omega)
      · simp [parse_number_expr]
      · exact ihparen s (by omega)
      · simp
    have Hbin : ∀ ep lhs s, 5 * s.toks.length + 8 ≤ n + 1 →
        parse_binop_rhs (n + 1) ep lhs s ≠ PResult.timeout := by
      intro ep lhs s hf
      rw [parse_binop_rhs]
      dsimp only
      by_cases h1 : get_token_precedence s < ep
      · rw [if_pos h1]; simp
      · rw [if_neg h1]
        cases hs : s.toks with
        | nil =>
          rw [get_next_token_nil hs]
          obtain ⟨k, rfl⟩ : ∃ k, n = k + 1 := ⟨n - 1, by omega⟩
          obtain ⟨s3, h3⟩ := parse_primary_nil s.log k
          rw [h3]
          simp
        | cons t ts =>
          have hlen : (get_next_token s).toks.length = ts.length := by
            simp [get_next_token, hs]
          have hts : s.toks.length = ts.length + 1 := by simp [hs]
          rcases hpp : parse_primary n (get_next_token s) with ⟨rhs, s3⟩ | s3 | _ <;>
            simp only [hpp]
          · have hc3 := (parse_consume n).2.2.2.1 _ rhs s3 hpp
            by_cases h2 : get_token_precedence s < get_token_precedence s3
            · rw [if_pos h2]
              rcases hbr : parse_binop_rhs n (get_token_precedence s + 1) rhs s3 with
                ⟨rhs2, s4⟩ | s4 | _ <;> simp only [hbr]
              · have hc4 := (parse_consume n).2.2.2.2.1 _ rhs s3 rhs2 s4 hbr
                exact ihbin ep _ s4 (by omega)
              · simp
              · exact absurd hbr (ihbin _ rhs s3 (by omega))
            · rw [if_neg h2]
              exact ihbin ep _ s3 (by omega)
          · simp
          · exact absurd hpp (ihprim _ (by omega))
    have Hexp : ∀ s, 5 * s.toks.length + 7 ≤ n + 1 →
        parse_expression (n + 1) s ≠ PResult.timeout := by
      intro s hf
      rw [parse_expression]
      rcases hpp : parse_primary n s with ⟨lhs, s1⟩ | s1 | _ <;> simp only [hpp]
      · have hc := (parse_consume n).2.2.2.1 s lhs s1 hpp
        exact ihbin 0 lhs s1 (by omega)
      · simp
      · exact absurd hpp (ihprim s (by omega))
    exact ⟨Hparen, Hident, Hargs, Hprim, Hbin, Hexp⟩

theorem read_proto_args_length : ∀ (toks : List Tok) (acc : List String),
    (read_proto_args toks acc).2.length ≤ toks.length := by
  intro toks
  induction toks with
  | nil => intro acc; simp [read_proto_args]
  | cons t rest ih =>
    intro acc
    rcases rest with _ | ⟨u, us⟩
    · exact Nat.zero_le _
    · cases u with
      | ident nm => exact le_trans (ih (acc ++ [nm])) (Nat.le_succ _)
      | eof => exact Nat.le_succ _
      | tdef => exact Nat.le_succ _
      | textern => exact Nat.le_succ _
      | num v => exact Nat.le_succ _
      | chr c => exact Nat.le_succ _

theorem parse_prototype_nontimeout : ∀ s, parse_prototype s ≠ PResult.timeout := by
  intro s
  rw [parse_prototype]
  split
  · by_cases h1 : current_token (get_next_token s) ≠ Tok.chr '('
    · rw [if_pos h1]; simp
    · rw [if_neg h1]
      rcases hra : read_proto_args (get_next_token s).toks [] with ⟨ns, toks2⟩
      simp only [hra]
      by_cases h2 : current_token ⟨toks2, (get_next_token s).log⟩ ≠ Tok.chr ')'
      · rw [if_pos h2]; simp
      · rw [if_neg h2]; simp
  · simp

theorem parse_prototype_length {s : PState} {proto : prototype_ast} {s2 : PState}
    (h : parse_prototype s = PResult.ok proto s2) :
    s2.toks.length ≤ s.toks.length := by
  rw [parse_prototype] at h
  split at h
  · by_cases h1 : current_token (get_next_token s) ≠ Tok.chr '('
    · rw [if_pos h1] at h; simp at h
    · rw [if_neg h1] at h
      rcases hra : read_proto_args (get_next_token s).toks [] with ⟨ns, toks2⟩
      simp only [hra] at h
      by_cases h2 : current_token ⟨toks2, (get_next_token s).log⟩ ≠ Tok.chr ')'
      · rw [if_pos h2] at h; simp at h
      · rw [if_neg h2] at h
        simp only [PResult.ok.injEq] at h
        have hlen := read_proto_args_length (get_next_token s).toks []
        simp only [hra] at hlen
        have e1 : (get_next_token s).toks.length = s.toks.tail.length := rfl
        have e3 : (get_next_token (⟨toks2, (get_next_token s).log⟩ : PState)).toks.length =
            toks2.tail.length := rfl
        have e4 := List.length_tail toks2
        have e5 := List.length_tail s.toks
        rw [← h.2, e3]
        omega
  · simp at h

/-- C10.  Every parser entry point terminates on every finite token
stream: `5 * length + 7` evaluation steps always suffice for
`parse_expression`, `parse_definition` and `parse_top_level_expr` to
return a non-timeout result (each loop iteration and each recursive call
consumes tokens), and `parse_extern` / `parse_prototype` involve no
unbounded recursion at all. -/
theorem C10_parser_terminates :
    ∀ s : PState,
      parse_expression (5 * s.toks.length + 7) s ≠ PResult.timeout ∧
      parse_definition (5 * s.toks.length + 7) s ≠ PResult.timeout ∧
      parse_extern s ≠ PResult.timeout ∧
      parse_top_level_expr (5 * s.toks.length + 7) s ≠ PResult.timeout := by
  intro s
  refine ⟨(parse_nontimeout _).2.2.2.2.2 s (by omega), ?_, ?_, ?_⟩
  · rw [parse_definition]
    rcases hpr : parse_prototype (get_next_token s) with ⟨proto, s2⟩ | s2 | _ <;>
      simp only [hpr]
    · have hle : s2.toks.length ≤ (get_next_token s).toks.length :=
        parse_prototype_length hpr
      have hle2 := get_next_token_length_le s
      rcases hpe : parse_expression (5 * s.toks.length + 7) s2 with ⟨e, s3⟩ | s3 | _ <;>
        simp only [hpe]
      · simp
      · simp
      · exact absurd hpe ((parse_nontimeout _).2.2.2.2.2 s2 (by omega))
    · simp
    · exact absurd hpr (parse_prototype_nontimeout _)
  · rw [ parse_extern]
    exact parse_prototype_nontimeout _
  · rw [parse_top_level_expr]
    rcases hpe : parse_expression (5 * s.toks.length + 7) s with ⟨e, s3⟩ | s3 | _ <;>
      simp only [hpe]
    · simp
    · simp
    · exact absurd hpe ((parse_nontimeout _).2.2.2.2.2 s (by omega))

end Kaleidoscope
